import Mathlib

/-!
# Verification of the LogicReducer truth-table compiler

A shallow embedding of the table-to-minterm compiler in `LogicReducer.py`.
Strings are modelled as `List Char`; Python exceptions (`ValueError` from
`int(s, 2)`, `IndexError` from out-of-range indexing) are modelled with
`Except String`.  The embedding follows the source line by line:

* `fromRowToNumbers`  — the recursive wildcard expansion (source lines 38–46);
* `processOutputs`    — the `for index, out in enumerate(outputs)` loop
  (source lines 119–123);
* `processLine`       — the body of `for line in lines` (source lines 112–123),
  in Python's evaluation order: the input segment is parsed *before* the
  output segment `line[1]` is indexed;
* `compile`           — header parsing plus the loop over all lines
  (source lines 104–123); note the source iterates over *every* line of the
  file, the first (header) line included;
* `reducerCalls`      — the per-column serialization and invocation of the
  external `petrick` binary (source lines 125–138).
-/

namespace LogicReducer

/-- Number of occurrences of a character in a list (used as the termination
measure of the wildcard expansion). -/
def countCh (a : Char) : List Char → Nat
  | [] => 0
  | c :: cs => (if c = a then 1 else 0) + countCh a cs

/-- Python's `s.replace(old, new, 1)`: replace the first occurrence only. -/
def replaceFirst : List Char → Char → Char → List Char
  | [], _, _ => []
  | c :: cs, old, new => if c = old then new :: cs else c :: replaceFirst cs old new

theorem countCh_replaceFirst_succ (l : List Char) (a b : Char)
    (ha : a ∈ l) (hb : b ≠ a) :
    countCh a (replaceFirst l a b) + 1 = countCh a l := by
  induction l with
  | nil => cases ha
  | cons c cs ih =>
    by_cases hc : c = a
    · subst hc
      simp [replaceFirst, countCh, hb]
      omega
    · rcases List.mem_cons.mp ha with h | h
      · exact absurd h.symm hc
      · simp only [replaceFirst, if_neg hc, countCh]
        rw [← ih h]
        omega

theorem countCh_replaceFirst_lt (l : List Char) (a b : Char)
    (ha : a ∈ l) (hb : b ≠ a) :
    countCh a (replaceFirst l a b) < countCh a l := by
  have := countCh_replaceFirst_succ l a b ha hb
  omega

/-- One step of reading a binary numeral left to right. -/
def binStep (a : Nat) (c : Char) : Nat := 2 * a + (if c = '1' then 1 else 0)

/-- Value of a base-2 numeral, as computed by Python's `int(s, 2)` on a plain
string of binary digits. -/
def binVal (l : List Char) : Nat := l.foldl binStep 0

/-- Python's `int(s, 2)` as a partial function, on the fragment reachable from
this program: it succeeds exactly on nonempty strings of the ASCII digits
`0`/`1`.  CPython is more liberal: it tolerates surrounding whitespace
(Unicode whitespace, the separator controls `\x1c`–`\x1f` included), a
sign, a `0b` prefix and grouping underscores, and it normalizes Unicode
decimal digits before parsing (a fullwidth `１` parses as `1`).  No theorem
below concludes an error from a string containing any of those decoration
characters or any non-ASCII character. -/
def parseBin (l : List Char) : Option Nat :=
  if l ≠ [] ∧ ∀ c ∈ l, c = '0' ∨ c = '1' then some (binVal l) else none

/-- Source lines 38–46, verbatim structure:

```python
def fromRowToNumbers(input: str) -> list[int]:
    ret = []
    if 'x' in input:
        ret.extend(fromRowToNumbers(input.replace('x', '0', 1)))
        ret.extend(fromRowToNumbers(input.replace('x', '1', 1)))
    else:
        input = input.replace(' ', '')
        ret.append(int(input, 2))
    return ret
```

A `ValueError` raised by `int` at the first (all-`0`) leaf propagates before
the second recursive call runs, which the nested match mirrors. -/
def fromRowToNumbers (input : List Char) : Except String (List Nat) :=
  if h : 'x' ∈ input then
    match fromRowToNumbers (replaceFirst input 'x' '0') with
    | .error e => .error e
    | .ok a =>
      match fromRowToNumbers (replaceFirst input 'x' '1') with
      | .error e => .error e
      | .ok b => .ok (a ++ b)
  else
    match parseBin (input.filter (fun c => c ≠ ' ')) with
    | some n => .ok [n]
    | none => .error "ValueError"
termination_by countCh 'x' input
decreasing_by
  · exact countCh_replaceFirst_lt input 'x' '0' h (by decide)
  · exact countCh_replaceFirst_lt input 'x' '1' h (by decide)

theorem fromRowToNumbers_of_mem (p : List Char) (h : 'x' ∈ p) :
    fromRowToNumbers p =
      match fromRowToNumbers (replaceFirst p 'x' '0') with
      | .error e => .error e
      | .ok a =>
        match fromRowToNumbers (replaceFirst p 'x' '1') with
        | .error e => .error e
        | .ok b => .ok (a ++ b) := by
  rw [fromRowToNumbers]
  rw [dif_pos h]

theorem fromRowToNumbers_of_not_mem (p : List Char) (h : ¬ 'x' ∈ p) :
    fromRowToNumbers p =
      match parseBin (p.filter (fun c => c ≠ ' ')) with
      | some n => .ok [n]
      | none => .error "ValueError" := by
  rw [fromRowToNumbers]
  rw [dif_neg h]

/-! ## Structural view of the wildcard expansion

`expandAll` lists the concrete binary strings a pattern covers, left branch
(`0`) before right branch (`1`), first wildcard varying slowest.  It is the
structural-recursion companion of `fromRowToNumbers`, used to state and prove
what the recursive replace-first expansion computes. -/

/-- All concrete strings covered by a pattern, `0` branch first. -/
def expandAll : List Char → List (List Char)
  | [] => [[]]
  | c :: cs =>
    if c = 'x' then
      (expandAll cs).map (fun w => '0' :: w) ++ (expandAll cs).map (fun w => '1' :: w)
    else
      (expandAll cs).map (fun w => c :: w)

/-- `matchesPat p w`: `w` agrees with pattern `p` everywhere, with literal
positions copied and wildcard positions concrete binary digits. -/
def matchesPat : List Char → List Char → Bool
  | [], [] => true
  | p :: ps, c :: cs =>
    (if p = 'x' then c == '0' || c == '1' else c == p) && matchesPat ps cs
  | _, _ => false

/-- The subword of `w` at the wildcard positions of pattern `p`. -/
def wilds : List Char → List Char → List Char
  | p :: ps, c :: cs => if p = 'x' then c :: wilds ps cs else wilds ps cs
  | _, _ => []

theorem length_replaceFirst (l : List Char) (a b : Char) :
    (replaceFirst l a b).length = l.length := by
  induction l with
  | nil => rfl
  | cons c cs ih =>
    by_cases hc : c = a <;> simp [replaceFirst, hc, ih]

theorem mem_replaceFirst_of_ne {c : Char} {l : List Char} (a b : Char)
    (hc : c ∈ l) (hne : c ≠ a) : c ∈ replaceFirst l a b := by
  induction l with
  | nil => cases hc
  | cons d ds ih =>
    by_cases hd : d = a
    · rcases List.mem_cons.mp hc with h | h
      · exact absurd (h.trans hd) hne
      · simp [replaceFirst, hd, h]
    · rcases List.mem_cons.mp hc with h | h
      · simp [replaceFirst, hd, h]
      · simp [replaceFirst, hd, ih h]

theorem mem_of_mem_replaceFirst {c : Char} {l : List Char} {a b : Char}
    (hc : c ∈ replaceFirst l a b) : c = b ∨ c ∈ l := by
  induction l with
  | nil => cases hc
  | cons d ds ih =>
    by_cases hd : d = a
    · simp only [replaceFirst, if_pos hd] at hc
      rcases List.mem_cons.mp hc with h | h
      · exact Or.inl h
      · exact Or.inr (List.mem_cons_of_mem _ h)
    · simp only [replaceFirst, if_neg hd] at hc
      rcases List.mem_cons.mp hc with h | h
      · exact Or.inr (h ▸ List.mem_cons_self _ _)
      · rcases ih h with h' | h'
        · exact Or.inl h'
        · exact Or.inr (List.mem_cons_of_mem _ h')

theorem filter_replaceFirst (l : List Char) (a b : Char)
    (ha : a ≠ ' ') (hb : b ≠ ' ') :
    (replaceFirst l a b).filter (fun c => c ≠ ' ') =
      replaceFirst (l.filter (fun c => c ≠ ' ')) a b := by
  induction l with
  | nil => rfl
  | cons c cs ih =>
    by_cases hc : c = a
    · subst hc
      simp [replaceFirst, List.filter_cons, ha, hb]
    · by_cases hsp : c = ' '
      · subst hsp
        simp only [replaceFirst, if_neg hc, List.filter_cons]
        simpa using ih
      · simp only [replaceFirst, if_neg hc, List.filter_cons]
        simp [hsp, replaceFirst, hc]
        simpa using ih

theorem countCh_eq_zero {a : Char} {l : List Char} (h : ¬ a ∈ l) :
    countCh a l = 0 := by
  induction l with
  | nil => rfl
  | cons c cs ih =>
    simp only [List.mem_cons, not_or] at h
    simp [countCh, Ne.symm h.1, ih h.2]

theorem countCh_pos {a : Char} {l : List Char} (h : a ∈ l) :
    0 < countCh a l := by
  induction l with
  | nil => cases h
  | cons c cs ih =>
    rcases List.mem_cons.mp h with h' | h'
    · simp [countCh, h'.symm]
    · have := ih h'
      simp only [countCh]
      omega

theorem countCh_le_length (a : Char) (l : List Char) :
    countCh a l ≤ l.length := by
  induction l with
  | nil => exact Nat.le_refl 0
  | cons c cs ih =>
    simp only [countCh, List.length_cons]
    by_cases hc : c = a <;> simp [hc] <;> omega

theorem expandAll_of_not_mem {l : List Char} (h : ¬ 'x' ∈ l) :
    expandAll l = [l] := by
  induction l with
  | nil => rfl
  | cons c cs ih =>
    simp only [List.mem_cons, not_or] at h
    simp [expandAll, Ne.symm h.1, ih h.2]

theorem expandAll_replaceFirst {l : List Char} (h : 'x' ∈ l) :
    expandAll l =
      expandAll (replaceFirst l 'x' '0') ++ expandAll (replaceFirst l 'x' '1') := by
  induction l with
  | nil => cases h
  | cons c cs ih =>
    by_cases hc : c = 'x'
    · subst hc
      simp [expandAll, replaceFirst]
    · have hcs : 'x' ∈ cs := by
        rcases List.mem_cons.mp h with h' | h'
        · exact absurd h'.symm hc
        · exact h'
      simp only [expandAll, if_neg hc, replaceFirst,
        if_neg (fun hh : c = 'x' => hc hh), ih hcs, List.map_append]

theorem expandAll_cons_x (cs : List Char) :
    expandAll ('x' :: cs) =
      (expandAll cs).map (fun w => '0' :: w) ++ (expandAll cs).map (fun w => '1' :: w) := by
  simp [expandAll]

theorem expandAll_cons_ne (c : Char) (cs : List Char) (h : c ≠ 'x') :
    expandAll (c :: cs) = (expandAll cs).map (fun w => c :: w) := by
  simp [expandAll, h]

theorem countCh_cons_self (a : Char) (cs : List Char) :
    countCh a (a :: cs) = 1 + countCh a cs := by
  simp [countCh]

theorem countCh_cons_ne (a c : Char) (cs : List Char) (h : c ≠ a) :
    countCh a (c :: cs) = countCh a cs := by
  simp [countCh, h]

theorem length_expandAll (l : List Char) :
    (expandAll l).length = 2 ^ countCh 'x' l := by
  induction l with
  | nil => rfl
  | cons c cs ih =>
    by_cases hc : c = 'x'
    · subst hc
      rw [expandAll_cons_x, countCh_cons_self]
      simp only [List.length_append, List.length_map, ih]
      rw [pow_add]
      ring
    · rw [expandAll_cons_ne c cs hc, countCh_cons_ne 'x' c cs hc]
      simp [ih]

theorem length_of_mem_expandAll {w l : List Char} (h : w ∈ expandAll l) :
    w.length = l.length := by
  induction l generalizing w with
  | nil =>
    simp only [expandAll, List.mem_singleton] at h
    simp [h]
  | cons c cs ih =>
    by_cases hc : c = 'x'
    · subst hc
      rw [expandAll_cons_x] at h
      simp only [List.mem_append, List.mem_map] at h
      rcases h with ⟨v, hv, rfl⟩ | ⟨v, hv, rfl⟩ <;> simp [ih hv]
    · rw [expandAll_cons_ne c cs hc] at h
      simp only [List.mem_map] at h
      rcases h with ⟨v, hv, rfl⟩
      simp [ih hv]

theorem matchesPat_cons_x (d : Char) (ps ds : List Char) :
    matchesPat ('x' :: ps) (d :: ds) = ((d == '0' || d == '1') && matchesPat ps ds) := by
  simp [matchesPat]

theorem matchesPat_cons_ne (p d : Char) (ps ds : List Char) (h : p ≠ 'x') :
    matchesPat (p :: ps) (d :: ds) = ((d == p) && matchesPat ps ds) := by
  simp [matchesPat, h]

theorem mem_expandAll_iff (p w : List Char) :
    w ∈ expandAll p ↔ matchesPat p w = true := by
  induction p generalizing w with
  | nil =>
    cases w with
    | nil => simp [expandAll, matchesPat]
    | cons c cs => simp [expandAll, matchesPat]
  | cons c cs ih =>
    by_cases hc : c = 'x'
    · subst hc
      cases w with
      | nil =>
        rw [expandAll_cons_x]
        simp [matchesPat]
      | cons d ds =>
        rw [expandAll_cons_x, matchesPat_cons_x]
        simp only [List.mem_append, List.mem_map,
          Bool.and_eq_true, Bool.or_eq_true, beq_iff_eq, List.cons.injEq, ih]
        constructor
        · rintro (⟨v, hv, rfl, rfl⟩ | ⟨v, hv, rfl, rfl⟩)
          · exact ⟨Or.inl rfl, hv⟩
          · exact ⟨Or.inr rfl, hv⟩
        · rintro ⟨rfl | rfl, hm⟩
          · exact Or.inl ⟨ds, hm, rfl, rfl⟩
          · exact Or.inr ⟨ds, hm, rfl, rfl⟩
    · cases w with
      | nil =>
        rw [expandAll_cons_ne c cs hc]
        simp [matchesPat]
      | cons d ds =>
        rw [expandAll_cons_ne c cs hc, matchesPat_cons_ne c d cs ds hc]
        simp only [List.mem_map,
          Bool.and_eq_true, beq_iff_eq, List.cons.injEq, ih]
        constructor
        · rintro ⟨v, hv, rfl, rfl⟩
          exact ⟨rfl, hv⟩
        · rintro ⟨rfl, hm⟩
          exact ⟨ds, hm, rfl, rfl⟩

theorem binary_of_mem_expandAll {p w : List Char}
    (hp : ∀ c ∈ p, c = '0' ∨ c = '1' ∨ c = 'x')
    (hw : w ∈ expandAll p) : ∀ c ∈ w, c = '0' ∨ c = '1' := by
  induction p generalizing w with
  | nil =>
    simp only [expandAll, List.mem_singleton] at hw
    subst hw
    intro c hc
    cases hc
  | cons a ps ih =>
    have hps : ∀ c ∈ ps, c = '0' ∨ c = '1' ∨ c = 'x' :=
      fun c hc => hp c (List.mem_cons_of_mem _ hc)
    by_cases ha : a = 'x'
    · subst ha
      rw [expandAll_cons_x] at hw
      simp only [List.mem_append, List.mem_map] at hw
      rcases hw with ⟨v, hv, rfl⟩ | ⟨v, hv, rfl⟩ <;>
        · intro c hc
          rcases List.mem_cons.mp hc with rfl | hc'
          · simp
          · exact ih hps hv c hc'
    · rw [expandAll_cons_ne a ps ha] at hw
      simp only [List.mem_map] at hw
      rcases hw with ⟨v, hv, rfl⟩
      intro c hc
      rcases List.mem_cons.mp hc with rfl | hc'
      · rcases hp c (List.mem_cons_self _ _) with h | h | h
        · exact Or.inl h
        · exact Or.inr h
        · exact absurd h ha
      · exact ih hps hv c hc'

theorem nodup_expandAll (p : List Char) : (expandAll p).Nodup := by
  induction p with
  | nil => simp [expandAll]
  | cons c cs ih =>
    by_cases hc : c = 'x'
    · subst hc
      rw [expandAll_cons_x]
      refine List.Nodup.append ?_ ?_ ?_
      · exact ih.map (fun a b h => by injection h)
      · exact ih.map (fun a b h => by injection h)
      · intro w hw0 hw1
        simp only [List.mem_map] at hw0 hw1
        rcases hw0 with ⟨v, -, rfl⟩
        rcases hw1 with ⟨u, -, he⟩
        injection he with h1 h2
        exact absurd h1 (by decide)
    · rw [expandAll_cons_ne c cs hc]
      exact ih.map (fun a b h => by injection h)

/-! ## Arithmetic of `binVal` -/

theorem foldl_binStep (l : List Char) (a : Nat) :
    l.foldl binStep a = a * 2 ^ l.length + binVal l := by
  induction l generalizing a with
  | nil => simp [binVal]
  | cons c cs ih =>
    have h1 : (c :: cs).foldl binStep a = cs.foldl binStep (binStep a c) := rfl
    have h2 : binVal (c :: cs) = cs.foldl binStep (binStep 0 c) := rfl
    rw [h1, h2, ih (binStep a c), ih (binStep 0 c)]
    simp only [binStep, List.length_cons]
    ring

theorem binVal_cons (c : Char) (l : List Char) :
    binVal (c :: l) = (if c = '1' then 1 else 0) * 2 ^ l.length + binVal l := by
  rw [binVal, List.foldl_cons, foldl_binStep]
  simp [binStep]

theorem binVal_lt (l : List Char) : binVal l < 2 ^ l.length := by
  induction l with
  | nil => simp [binVal]
  | cons c cs ih =>
    rw [binVal_cons]
    simp only [List.length_cons, pow_succ]
    by_cases hc : c = '1' <;> simp [hc] <;> omega

theorem binVal_inj {l m : List Char}
    (hl : ∀ c ∈ l, c = '0' ∨ c = '1') (hm : ∀ c ∈ m, c = '0' ∨ c = '1')
    (hlen : l.length = m.length) (hv : binVal l = binVal m) : l = m := by
  induction l generalizing m with
  | nil =>
    cases m with
    | nil => rfl
    | cons d ds => simp at hlen
  | cons c cs ih =>
    cases m with
    | nil => simp at hlen
    | cons d ds =>
      simp only [List.length_cons, Nat.succ.injEq] at hlen
      rw [binVal_cons, binVal_cons, hlen] at hv
      have hltc := binVal_lt cs
      have hltd := binVal_lt ds
      rw [hlen] at hltc
      have hcd : c = d ∧ binVal cs = binVal ds := by
        rcases hl c (List.mem_cons_self _ _) with rfl | rfl <;>
          rcases hm d (List.mem_cons_self _ _) with rfl | rfl <;>
            simp_all <;> omega
      obtain ⟨hcd1, hcd2⟩ := hcd
      subst hcd1
      rw [ih (fun a ha => hl a (List.mem_cons_of_mem _ ha))
        (fun a ha => hm a (List.mem_cons_of_mem _ ha)) hlen hcd2]

theorem length_wilds {p w : List Char} (h : w.length = p.length) :
    (wilds p w).length = countCh 'x' p := by
  induction p generalizing w with
  | nil =>
    cases w with
    | nil => rfl
    | cons c cs => simp at h
  | cons a ps ih =>
    cases w with
    | nil => simp at h
    | cons c cs =>
      simp only [List.length_cons, Nat.succ.injEq] at h
      by_cases ha : a = 'x'
      · subst ha
        simp [wilds, countCh, ih h]
        omega
      · simp [wilds, ha, countCh_cons_ne 'x' a ps ha, ih h]

theorem wilds_cons_x (ps : List Char) (c : Char) (cs : List Char) :
    wilds ('x' :: ps) (c :: cs) = c :: wilds ps cs := by
  simp [wilds]

theorem wilds_cons_ne (a : Char) (ps : List Char) (c : Char) (cs : List Char)
    (h : a ≠ 'x') : wilds (a :: ps) (c :: cs) = wilds ps cs := by
  simp [wilds, h]

/-- The expansion enumerates wildcard assignments in counter order: reading
the wildcard bits of the `j`-th expanded word (first wildcard most
significant) gives exactly `j`. -/
theorem expandAll_order (p : List Char) :
    (expandAll p).map (fun w => binVal (wilds p w)) =
      List.range (2 ^ countCh 'x' p) := by
  induction p with
  | nil => decide
  | cons c ps ih =>
    by_cases hc : c = 'x'
    · subst hc
      rw [expandAll_cons_x, countCh_cons_self, List.map_append, List.map_map,
        List.map_map]
      have h0 : ∀ w ∈ expandAll ps,
          ((fun w => binVal (wilds ('x' :: ps) w)) ∘ fun w => '0' :: w) w =
            binVal (wilds ps w) := by
        intro w hw
        simp only [Function.comp_apply]
        rw [wilds_cons_x, binVal_cons]
        simp
      have h1 : ∀ w ∈ expandAll ps,
          ((fun w => binVal (wilds ('x' :: ps) w)) ∘ fun w => '1' :: w) w =
            2 ^ countCh 'x' ps + binVal (wilds ps w) := by
        intro w hw
        simp only [Function.comp_apply]
        rw [wilds_cons_x, binVal_cons]
        have hlw : (wilds ps w).length = countCh 'x' ps :=
          length_wilds (length_of_mem_expandAll hw)
        simp [hlw]
      rw [List.map_congr_left h0, List.map_congr_left h1]
      have hmm : (expandAll ps).map (fun w => 2 ^ countCh 'x' ps + binVal (wilds ps w)) =
          ((expandAll ps).map (fun w => binVal (wilds ps w))).map
            (fun n => 2 ^ countCh 'x' ps + n) := by
        rw [List.map_map]
        rfl
      rw [hmm, ih, pow_add]
      rw [show (2 : Nat) ^ 1 * 2 ^ countCh 'x' ps =
            2 ^ countCh 'x' ps + 2 ^ countCh 'x' ps by ring]
      rw [List.range_add]
    · rw [expandAll_cons_ne c ps hc, countCh_cons_ne 'x' c ps hc, List.map_map]
      have h0 : ∀ w ∈ expandAll ps,
          ((fun w => binVal (wilds (c :: ps) w)) ∘ fun w => c :: w) w =
            binVal (wilds ps w) := by
        intro w hw
        simp only [Function.comp_apply]
        rw [wilds_cons_ne c ps c w hc]
      rw [List.map_congr_left h0, ih]

/-! ## What `fromRowToNumbers` computes -/

theorem parseBin_of_valid {l : List Char} (hne : l ≠ [])
    (hb : ∀ c ∈ l, c = '0' ∨ c = '1') : parseBin l = some (binVal l) := by
  rw [parseBin, if_pos ⟨hne, hb⟩]

theorem parseBin_of_invalid {l : List Char} {c : Char} (hc : c ∈ l)
    (h0 : c ≠ '0') (h1 : c ≠ '1') : parseBin l = none := by
  rw [parseBin, if_neg]
  rintro ⟨-, hb⟩
  rcases hb c hc with h | h
  · exact h0 h
  · exact h1 h

theorem mem_filter_space {c : Char} {l : List Char} (hc : c ∈ l) (hs : c ≠ ' ') :
    c ∈ l.filter (fun d => d ≠ ' ') := by
  simp only [List.mem_filter, ne_eq, decide_not]
  exact ⟨hc, by simp [hs]⟩

theorem mem_x_filter (l : List Char) :
    'x' ∈ l.filter (fun d => d ≠ ' ') ↔ 'x' ∈ l := by
  simp [List.mem_filter]

/-- On a row over the alphabet `{0,1,x,space}` whose non-space part is
nonempty, the recursive expansion succeeds and returns exactly the binary
values of the structural expansion of the de-spaced pattern, in its order. -/
theorem fromRowToNumbers_valid :
    ∀ (p : List Char), (∀ c ∈ p, c = '0' ∨ c = '1' ∨ c = 'x' ∨ c = ' ') →
      p.filter (fun c => c ≠ ' ') ≠ [] →
      fromRowToNumbers p =
        .ok ((expandAll (p.filter (fun c => c ≠ ' '))).map binVal) := by
  have key : ∀ (k : Nat) (p : List Char), countCh 'x' p = k →
      (∀ c ∈ p, c = '0' ∨ c = '1' ∨ c = 'x' ∨ c = ' ') →
      p.filter (fun c => c ≠ ' ') ≠ [] →
      fromRowToNumbers p =
        .ok ((expandAll (p.filter (fun c => c ≠ ' '))).map binVal) := by
    intro k
    induction k using Nat.strong_induction_on with
    | _ k ih =>
      intro p hk halpha hne
      by_cases hx : 'x' ∈ p
      · have hk0 : 0 < k := hk ▸ countCh_pos hx
        rw [fromRowToNumbers_of_mem p hx]
        have halpha0 : ∀ c ∈ replaceFirst p 'x' '0',
            c = '0' ∨ c = '1' ∨ c = 'x' ∨ c = ' ' := by
          intro c hc
          rcases mem_of_mem_replaceFirst hc with rfl | hc'
          · exact Or.inl rfl
          · exact halpha c hc'
        have halpha1 : ∀ c ∈ replaceFirst p 'x' '1',
            c = '0' ∨ c = '1' ∨ c = 'x' ∨ c = ' ' := by
          intro c hc
          rcases mem_of_mem_replaceFirst hc with rfl | hc'
          · exact Or.inr (Or.inl rfl)
          · exact halpha c hc'
        have hcnt0 : countCh 'x' (replaceFirst p 'x' '0') < k :=
          hk ▸ countCh_replaceFirst_lt p 'x' '0' hx (by decide)
        have hcnt1 : countCh 'x' (replaceFirst p 'x' '1') < k :=
          hk ▸ countCh_replaceFirst_lt p 'x' '1' hx (by decide)
        have hf0 : (replaceFirst p 'x' '0').filter (fun c => c ≠ ' ') ≠ [] := by
          rw [filter_replaceFirst p 'x' '0' (by decide) (by decide)]
          intro hcon
          apply hne
          have := congrArg List.length hcon
          rw [length_replaceFirst] at this
          exact List.length_eq_zero.mp this
        have hf1 : (replaceFirst p 'x' '1').filter (fun c => c ≠ ' ') ≠ [] := by
          rw [filter_replaceFirst p 'x' '1' (by decide) (by decide)]
          intro hcon
          apply hne
          have := congrArg List.length hcon
          rw [length_replaceFirst] at this
          exact List.length_eq_zero.mp this
        rw [ih _ hcnt0 _ rfl halpha0 hf0, ih _ hcnt1 _ rfl halpha1 hf1]
        rw [filter_replaceFirst p 'x' '0' (by decide) (by decide),
          filter_replaceFirst p 'x' '1' (by decide) (by decide)]
        dsimp only
        rw [← List.map_append, ← expandAll_replaceFirst ((mem_x_filter p).mpr hx)]
      · rw [fromRowToNumbers_of_not_mem p hx]
        have hbin : ∀ c ∈ p.filter (fun c => c ≠ ' '), c = '0' ∨ c = '1' := by
          intro c hc
          have hcp : c ∈ p := List.mem_of_mem_filter hc
          have hcs : c ≠ ' ' := by
            have := List.of_mem_filter hc
            simpa using this
          rcases halpha c hcp with h | h | h | h
          · exact Or.inl h
          · exact Or.inr h
          · exact absurd (h ▸ hcp) hx
          · exact absurd h hcs
        rw [parseBin_of_valid hne hbin]
        rw [expandAll_of_not_mem (fun hcon => hx ((mem_x_filter p).mp hcon))]
        rfl
  exact fun p => key (countCh 'x' p) p rfl

/-- A character that is not a binary digit, not the wildcard and not a space
poisons every leaf of the expansion: the first leaf raises `ValueError`. -/
theorem fromRowToNumbers_invalid :
    ∀ (p : List Char) (c : Char), c ∈ p →
      c ≠ '0' → c ≠ '1' → c ≠ 'x' → c ≠ ' ' →
      fromRowToNumbers p = .error "ValueError" := by
  have key : ∀ (k : Nat) (p : List Char), countCh 'x' p = k →
      ∀ (c : Char), c ∈ p → c ≠ '0' → c ≠ '1' → c ≠ 'x' → c ≠ ' ' →
      fromRowToNumbers p = .error "ValueError" := by
    intro k
    induction k using Nat.strong_induction_on with
    | _ k ih =>
      intro p hk c hc h0 h1 hx hs
      by_cases hxp : 'x' ∈ p
      · rw [fromRowToNumbers_of_mem p hxp]
        have hcnt0 : countCh 'x' (replaceFirst p 'x' '0') < k :=
          hk ▸ countCh_replaceFirst_lt p 'x' '0' hxp (by decide)
        have hc0 : c ∈ replaceFirst p 'x' '0' := mem_replaceFirst_of_ne 'x' '0' hc hx
        rw [ih _ hcnt0 _ rfl c hc0 h0 h1 hx hs]
      · rw [fromRowToNumbers_of_not_mem p hxp]
        rw [parseBin_of_invalid (mem_filter_space hc hs) h0 h1]
  exact fun p c hc h0 h1 hx hs => key (countCh 'x' p) p rfl c hc h0 h1 hx hs

/-- Executable characterization of `fromRowToNumbers`, proved equal to it in
`fromRowToNumbers_eq_impl`; all recursion here is structural, so concrete
rows evaluate by `rfl`. -/
def fromRowToNumbersImpl (p : List Char) : Except String (List Nat) :=
  if (∀ c ∈ p, c = '0' ∨ c = '1' ∨ c = 'x' ∨ c = ' ') ∧
      p.filter (fun c => c ≠ ' ') ≠ [] then
    .ok ((expandAll (p.filter (fun c => c ≠ ' '))).map binVal)
  else
    .error "ValueError"

theorem fromRowToNumbers_eq_impl (p : List Char) :
    fromRowToNumbers p = fromRowToNumbersImpl p := by
  by_cases h : (∀ c ∈ p, c = '0' ∨ c = '1' ∨ c = 'x' ∨ c = ' ') ∧
      p.filter (fun c => c ≠ ' ') ≠ []
  · rw [fromRowToNumbersImpl, if_pos h, fromRowToNumbers_valid p h.1 h.2]
  · rw [fromRowToNumbersImpl, if_neg h]
    rw [Classical.not_and_iff_or_not_not] at h
    rcases h with h | h
    · push_neg at h
      obtain ⟨c, hc, h0, h1, hx, hs⟩ := h
      exact fromRowToNumbers_invalid p c hc h0 h1 hx hs
    · push_neg at h
      have hxp : ¬ 'x' ∈ p := by
        intro hcon
        have : 'x' ∈ p.filter (fun c => c ≠ ' ') := (mem_x_filter p).mpr hcon
        rw [h] at this
        cases this
      rw [fromRowToNumbers_of_not_mem p hxp, h, parseBin]
      simp

/-! ## The main loop (source lines 104–123)

`compile` models the `with open(...)` block of `main`: header parsing from
`lines[0]`, then the `for line in lines` loop over *all* lines.  Python's
`str.strip` is `trim`, `str.split(sep)` for a one-character separator is
`splitOnChar` (empty segments preserved, `"".split(s) == [""]`), and list
indexing failures surface as `IndexError`. -/

/-- Characters Python's `str.strip()` removes, restricted to the six ASCII
whitespace characters; CPython also strips further Unicode whitespace (and
the controls `\x1c`–`\x1f`), which no theorem below depends on. -/
def isPySpace (c : Char) : Bool :=
  c == ' ' || c == '\t' || c == '\n' || c == '\r' || c == Char.ofNat 11 || c == Char.ofNat 12

/-- Python `str.strip()`. -/
def trim (l : List Char) : List Char :=
  ((l.dropWhile isPySpace).reverse.dropWhile isPySpace).reverse

/-- Python `str.split(sep)` with a one-character separator: keeps empty
segments and returns `[""]` on the empty string. -/
def splitOnChar (sep : Char) : List Char → List (List Char)
  | [] => [[]]
  | c :: cs =>
    if c = sep then [] :: splitOnChar sep cs
    else
      match splitOnChar sep cs with
      | [] => [[c]]
      | s :: rest => (c :: s) :: rest

/-- `minterms[index].extend(v)` (or `dnc[index].extend(v)`): `none` models the
`IndexError` Python raises when `index` is out of range. -/
def extendAt : List (List Nat) → Nat → List Nat → Option (List (List Nat))
  | [], _, _ => none
  | xs :: rest, 0, v => some ((xs ++ v) :: rest)
  | xs :: rest, n + 1, v => (extendAt rest n v).map (fun r => xs :: r)

/-- Source lines 119–123, the `for index, out in enumerate(outputs)` loop:

```python
for index, out in enumerate(outputs):
    if out == '1':
        minterms[index].extend(inputs)
    elif out == 'x':
        dnc[index].extend(inputs)
```

A token that is neither `'1'` nor `'x'` touches nothing and performs no
bounds check. -/
def processOutputs (mins dnc : List (List Nat)) :
    List (List Char) → List Nat → Nat →
      Except String (List (List Nat) × List (List Nat))
  | [], _, _ => .ok (mins, dnc)
  | out :: rest, inputs, idx =>
    if out = ['1'] then
      match extendAt mins idx inputs with
      | some m => processOutputs m dnc rest inputs (idx + 1)
      | none => .error "IndexError"
    else if out = ['x'] then
      match extendAt dnc idx inputs with
      | some d => processOutputs mins d rest inputs (idx + 1)
      | none => .error "IndexError"
    else processOutputs mins dnc rest inputs (idx + 1)

/-- Source lines 112–123, one iteration of `for line in lines`, in Python's
evaluation order: `line.split("|")`, then `fromRowToNumbers(line[0].strip())`
(so a `ValueError` there fires before `line[1]` is ever indexed), then the
output loop on `line[1].strip().split(' ')`. -/
def processLine (mins dnc : List (List Nat)) (line : List Char) :
    Except String (List (List Nat) × List (List Nat)) :=
  match splitOnChar '|' line with
  | [] => .error "IndexError"
  | p0 :: restParts =>
    match fromRowToNumbers (trim p0) with
    | .error e => .error e
    | .ok inputs =>
      match restParts with
      | p1 :: _ => processOutputs mins dnc (splitOnChar ' ' (trim p1)) inputs 0
      | [] => .error "IndexError"

/-- The `for line in lines` loop threading `minterms` and `dnc` through. -/
def processLines (mins dnc : List (List Nat)) :
    List (List Char) → Except String (List (List Nat) × List (List Nat))
  | [] => .ok (mins, dnc)
  | l :: rest =>
    match processLine mins dnc l with
    | .ok (m, d) => processLines m d rest
    | .error e => .error e

/-- Outcome of the parse-and-classify phase of `main`. -/
structure CompileResult where
  inputCount : Nat
  outFuncCount : Nat
  minterms : List (List Nat)
  dnc : List (List Nat)

/-- Source lines 104–123:

```python
lines = f.readlines()
inputCount = len(lines[0].split('|')[0].strip().split(" "))
outFuncCount = len(lines[0].split('|')[1].strip().split(" "))
minterms    = [[] for i in range(outFuncCount)]
dnc         = [[] for i in range(outFuncCount)]
for line in lines:
    ...
```

`lines[0]` on an empty file and `lines[0].split('|')[1]` on a separator-free
first line raise `IndexError`.  The loop runs over every line, the first
included. -/
def compile (lines : List (List Char)) : Except String CompileResult :=
  match lines with
  | [] => .error "IndexError"
  | first :: rest =>
    match splitOnChar '|' first with
    | seg0 :: seg1 :: _ =>
      let ic := (splitOnChar ' ' (trim seg0)).length
      let oc := (splitOnChar ' ' (trim seg1)).length
      match processLines (List.replicate oc []) (List.replicate oc []) (first :: rest) with
      | .ok (m, d) => .ok ⟨ic, oc, m, d⟩
      | .error e => .error e
    | _ => .error "IndexError"

/-- `processLine` with the executable expansion substituted. -/
def processLineImpl (mins dnc : List (List Nat)) (line : List Char) :
    Except String (List (List Nat) × List (List Nat)) :=
  match splitOnChar '|' line with
  | [] => .error "IndexError"
  | p0 :: restParts =>
    match fromRowToNumbersImpl (trim p0) with
    | .error e => .error e
    | .ok inputs =>
      match restParts with
      | p1 :: _ => processOutputs mins dnc (splitOnChar ' ' (trim p1)) inputs 0
      | [] => .error "IndexError"

/-- `processLines` over `processLineImpl`. -/
def processLinesImpl (mins dnc : List (List Nat)) :
    List (List Char) → Except String (List (List Nat) × List (List Nat))
  | [] => .ok (mins, dnc)
  | l :: rest =>
    match processLineImpl mins dnc l with
    | .ok (m, d) => processLinesImpl m d rest
    | .error e => .error e

/-- `compile` over the executable expansion; concrete tables evaluate by
`rfl`. -/
def compileImpl (lines : List (List Char)) : Except String CompileResult :=
  match lines with
  | [] => .error "IndexError"
  | first :: rest =>
    match splitOnChar '|' first with
    | seg0 :: seg1 :: _ =>
      let ic := (splitOnChar ' ' (trim seg0)).length
      let oc := (splitOnChar ' ' (trim seg1)).length
      match processLinesImpl (List.replicate oc []) (List.replicate oc []) (first :: rest) with
      | .ok (m, d) => .ok ⟨ic, oc, m, d⟩
      | .error e => .error e
    | _ => .error "IndexError"

theorem processLine_eq_impl (mins dnc : List (List Nat)) (line : List Char) :
    processLine mins dnc line = processLineImpl mins dnc line := by
  rw [processLine, processLineImpl]
  cases splitOnChar '|' line with
  | nil => rfl
  | cons p0 restParts =>
    dsimp only
    rw [fromRowToNumbers_eq_impl]

theorem processLines_eq_impl (mins dnc : List (List Nat)) (ls : List (List Char)) :
    processLines mins dnc ls = processLinesImpl mins dnc ls := by
  induction ls generalizing mins dnc with
  | nil => rfl
  | cons l rest ih =>
    rw [processLines, processLinesImpl, processLine_eq_impl]
    cases processLineImpl mins dnc l with
    | ok md => exact ih md.1 md.2
    | error e => rfl

theorem compile_eq_impl (lines : List (List Char)) :
    compile lines = compileImpl lines := by
  cases lines with
  | nil => rfl
  | cons first rest =>
    rw [compile, compileImpl]
    cases splitOnChar '|' first with
    | nil => rfl
    | cons seg0 segs =>
      cases segs with
      | nil => rfl
      | cons seg1 segr =>
        dsimp only
        rw [processLines_eq_impl]

/-! ## Behaviour of the output-classification loop -/

theorem extendAt_of_lt {l : List (List Nat)} {i : Nat} (v : List Nat)
    (h : i < l.length) : ∃ l', extendAt l i v = some l' := by
  induction l generalizing i with
  | nil => simp at h
  | cons x rest ih =>
    cases i with
    | zero => exact ⟨(x ++ v) :: rest, rfl⟩
    | succ n =>
      obtain ⟨r, hr⟩ := ih (by simpa using Nat.lt_of_succ_lt_succ h)
      exact ⟨x :: r, by simp [extendAt, hr]⟩

theorem extendAt_length {l l' : List (List Nat)} {i : Nat} {v : List Nat}
    (h : extendAt l i v = some l') : l'.length = l.length := by
  induction l generalizing i l' with
  | nil => simp [extendAt] at h
  | cons x rest ih =>
    cases i with
    | zero =>
      simp only [extendAt, Option.some.injEq] at h
      simp [← h]
    | succ n =>
      simp only [extendAt, Option.map_eq_some'] at h
      obtain ⟨r, hr, rfl⟩ := h
      simp [ih hr]

theorem extendAt_get_self {l l' : List (List Nat)} {i : Nat} {v : List Nat}
    (h : extendAt l i v = some l') : l'[i]? = (l[i]?).map (fun s => s ++ v) := by
  induction l generalizing i l' with
  | nil => simp [extendAt] at h
  | cons x rest ih =>
    cases i with
    | zero =>
      simp only [extendAt, Option.some.injEq] at h
      simp [← h]
    | succ n =>
      simp only [extendAt, Option.map_eq_some'] at h
      obtain ⟨r, hr, rfl⟩ := h
      simpa using ih hr

theorem extendAt_get_ne {l l' : List (List Nat)} {i : Nat} {v : List Nat}
    (h : extendAt l i v = some l') {j : Nat} (hj : j ≠ i) : l'[j]? = l[j]? := by
  induction l generalizing i j l' with
  | nil => simp [extendAt] at h
  | cons x rest ih =>
    cases i with
    | zero =>
      simp only [extendAt, Option.some.injEq] at h
      cases j with
      | zero => exact absurd rfl hj
      | succ m => simp [← h]
    | succ n =>
      simp only [extendAt, Option.map_eq_some'] at h
      obtain ⟨r, hr, rfl⟩ := h
      cases j with
      | zero => simp
      | succ m =>
        simpa using ih hr (fun he => hj (by simp [he]))

theorem processOutputs_lengths :
    ∀ (outs : List (List Char)) (mins dnc m' d' : List (List Nat))
      (ins : List Nat) (idx : Nat),
      processOutputs mins dnc outs ins idx = .ok (m', d') →
      m'.length = mins.length ∧ d'.length = dnc.length := by
  intro outs
  induction outs with
  | nil =>
    intro mins dnc m' d' ins idx h
    simp only [processOutputs, Except.ok.injEq, Prod.mk.injEq] at h
    simp [← h.1, ← h.2]
  | cons out rest ih =>
    intro mins dnc m' d' ins idx h
    rw [processOutputs] at h
    by_cases h1 : out = ['1']
    · rw [if_pos h1] at h
      cases he : extendAt mins idx ins with
      | none => rw [he] at h; cases h
      | some m1 =>
        rw [he] at h
        have := ih m1 dnc m' d' ins (idx + 1) h
        exact ⟨this.1.trans (extendAt_length he), this.2⟩
    · rw [if_neg h1] at h
      by_cases hx : out = ['x']
      · rw [if_pos hx] at h
        cases he : extendAt dnc idx ins with
        | none => rw [he] at h; cases h
        | some d1 =>
          rw [he] at h
          have := ih mins d1 m' d' ins (idx + 1) h
          exact ⟨this.1, this.2.trans (extendAt_length he)⟩
      · rw [if_neg hx] at h
        exact ih mins dnc m' d' ins (idx + 1) h

/-- Full routing specification of the output loop: positions outside the
window `[idx, idx + outs.length)` are untouched; within the window, a `"1"`
token appends the row's indices to the minterm list of its column, an `"x"`
token to the don't-care list, and anything else leaves both unchanged. -/
theorem processOutputs_spec :
    ∀ (outs : List (List Char)) (mins dnc m' d' : List (List Nat))
      (ins : List Nat) (idx : Nat),
      processOutputs mins dnc outs ins idx = .ok (m', d') →
      (∀ j, (j < idx ∨ idx + outs.length ≤ j) →
        m'[j]? = mins[j]? ∧ d'[j]? = dnc[j]?) ∧
      (∀ t (ht : t < outs.length),
        (outs[t] = ['1'] →
          m'[idx + t]? = (mins[idx + t]?).map (fun s => s ++ ins) ∧
          d'[idx + t]? = dnc[idx + t]?) ∧
        (outs[t] = ['x'] →
          d'[idx + t]? = (dnc[idx + t]?).map (fun s => s ++ ins) ∧
          m'[idx + t]? = mins[idx + t]?) ∧
        (outs[t] ≠ ['1'] → outs[t] ≠ ['x'] →
          m'[idx + t]? = mins[idx + t]? ∧ d'[idx + t]? = dnc[idx + t]?)) := by
  intro outs
  induction outs with
  | nil =>
    intro mins dnc m' d' ins idx h
    simp only [processOutputs, Except.ok.injEq, Prod.mk.injEq] at h
    refine ⟨fun j _ => by simp [← h.1, ← h.2], fun t ht => by simp at ht⟩
  | cons out rest ih =>
    intro mins dnc m' d' ins idx h
    rw [processOutputs] at h
    by_cases h1 : out = ['1']
    · rw [if_pos h1] at h
      cases he : extendAt mins idx ins with
      | none => rw [he] at h; cases h
      | some m1 =>
        rw [he] at h
        obtain ⟨huntouched, hrouting⟩ := ih m1 dnc m' d' ins (idx + 1) h
        constructor
        · intro j hj
          have hj' : j < idx + 1 ∨ idx + 1 + rest.length ≤ j := by
            rcases hj with hj | hj
            · exact Or.inl (Nat.lt_succ_of_lt hj)
            · right
              simp only [List.length_cons] at hj
              omega
          have hne : j ≠ idx := by
            rcases hj with hj | hj
            · omega
            · simp only [List.length_cons] at hj; omega
          obtain ⟨hm, hd⟩ := huntouched j hj'
          exact ⟨hm.trans (extendAt_get_ne he hne), hd⟩
        · intro t ht
          cases t with
          | zero =>
            simp only [List.getElem_cons_zero, Nat.add_zero]
            refine ⟨fun _ => ?_, fun hx => absurd (h1.symm.trans hx) (by decide),
              fun hne _ => absurd h1 hne⟩
            obtain ⟨hm, hd⟩ := huntouched idx (Or.inl (Nat.lt_succ_self idx))
            exact ⟨hm.trans (extendAt_get_self he), hd⟩
          | succ u =>
            have hu : u < rest.length := by
              simpa using Nat.lt_of_succ_lt_succ ht
            have harith : idx + (u + 1) = idx + 1 + u := by omega
            obtain ⟨r1, r2, r3⟩ := hrouting u hu
            have hget : (out :: rest)[u + 1] = rest[u] := List.getElem_cons_succ ..
            rw [hget, harith]
            have hne : idx + 1 + u ≠ idx := by omega
            refine ⟨fun hh => ?_, fun hh => ?_, fun hh1 hh2 => ?_⟩
            · obtain ⟨hm, hd⟩ := r1 hh
              rw [extendAt_get_ne he hne] at hm
              exact ⟨hm, hd⟩
            · obtain ⟨hd, hm⟩ := r2 hh
              exact ⟨hd, hm.trans (extendAt_get_ne he hne)⟩
            · obtain ⟨hm, hd⟩ := r3 hh1 hh2
              exact ⟨hm.trans (extendAt_get_ne he hne), hd⟩
    · rw [if_neg h1] at h
      by_cases hx : out = ['x']
      · rw [if_pos hx] at h
        cases he : extendAt dnc idx ins with
        | none => rw [he] at h; cases h
        | some d1 =>
          rw [he] at h
          obtain ⟨huntouched, hrouting⟩ := ih mins d1 m' d' ins (idx + 1) h
          constructor
          · intro j hj
            have hj' : j < idx + 1 ∨ idx + 1 + rest.length ≤ j := by
              rcases hj with hj | hj
              · exact Or.inl (Nat.lt_succ_of_lt hj)
              · right
                simp only [List.length_cons] at hj
                omega
            have hne : j ≠ idx := by
              rcases hj with hj | hj
              · omega
              · simp only [List.length_cons] at hj; omega
            obtain ⟨hm, hd⟩ := huntouched j hj'
            exact ⟨hm, hd.trans (extendAt_get_ne he hne)⟩
          · intro t ht
            cases t with
            | zero =>
              simp only [List.getElem_cons_zero, Nat.add_zero]
              refine ⟨fun hh => absurd hh h1, fun _ => ?_,
                fun _ hne => absurd hx hne⟩
              obtain ⟨hm, hd⟩ := huntouched idx (Or.inl (Nat.lt_succ_self idx))
              exact ⟨hd.trans (extendAt_get_self he), hm⟩
            | succ u =>
              have hu : u < rest.length := by
                simpa using Nat.lt_of_succ_lt_succ ht
              have harith : idx + (u + 1) = idx + 1 + u := by omega
              obtain ⟨r1, r2, r3⟩ := hrouting u hu
              have hget : (out :: rest)[u + 1] = rest[u] := List.getElem_cons_succ ..
              rw [hget, harith]
              have hne : idx + 1 + u ≠ idx := by omega
              refine ⟨fun hh => ?_, fun hh => ?_, fun hh1 hh2 => ?_⟩
              · obtain ⟨hm, hd⟩ := r1 hh
                exact ⟨hm, hd.trans (extendAt_get_ne he hne)⟩
              · obtain ⟨hd, hm⟩ := r2 hh
                rw [extendAt_get_ne he hne] at hd
                exact ⟨hd, hm⟩
              · obtain ⟨hm, hd⟩ := r3 hh1 hh2
                exact ⟨hm, hd.trans (extendAt_get_ne he hne)⟩
      · rw [if_neg hx] at h
        obtain ⟨huntouched, hrouting⟩ := ih mins dnc m' d' ins (idx + 1) h
        constructor
        · intro j hj
          refine huntouched j ?_
          rcases hj with hj | hj
          · exact Or.inl (Nat.lt_succ_of_lt hj)
          · right
            simp only [List.length_cons] at hj
            omega
        · intro t ht
          cases t with
          | zero =>
            simp only [List.getElem_cons_zero, Nat.add_zero]
            refine ⟨fun hh => absurd hh h1, fun hh => absurd hh hx, fun _ _ => ?_⟩
            exact huntouched idx (Or.inl (Nat.lt_succ_self idx))
          | succ u =>
            have hu : u < rest.length := by
              simpa using Nat.lt_of_succ_lt_succ ht
            have harith : idx + (u + 1) = idx + 1 + u := by omega
            have hget : (out :: rest)[u + 1] = rest[u] := List.getElem_cons_succ ..
            rw [hget, harith]
            exact hrouting u hu

/-- The output loop never fails while its index window stays inside both
lists; in particular a row with fewer output symbols than columns is
processed without error. -/
theorem processOutputs_total :
    ∀ (outs : List (List Char)) (mins dnc : List (List Nat))
      (ins : List Nat) (idx : Nat),
      idx + outs.length ≤ mins.length → idx + outs.length ≤ dnc.length →
      ∃ m' d', processOutputs mins dnc outs ins idx = .ok (m', d') := by
  intro outs
  induction outs with
  | nil => exact fun mins dnc ins idx _ _ => ⟨mins, dnc, rfl⟩
  | cons out rest ih =>
    intro mins dnc ins idx hm hd
    simp only [List.length_cons] at hm hd
    rw [processOutputs]
    by_cases h1 : out = ['1']
    · rw [if_pos h1]
      obtain ⟨m1, hm1⟩ := extendAt_of_lt (l := mins) (i := idx) ins (by omega)
      rw [hm1]
      exact ih m1 dnc ins (idx + 1)
        (by rw [extendAt_length hm1]; omega) (by omega)
    · rw [if_neg h1]
      by_cases hx : out = ['x']
      · rw [if_pos hx]
        obtain ⟨d1, hd1⟩ := extendAt_of_lt (l := dnc) (i := idx) ins (by omega)
        rw [hd1]
        exact ih mins d1 ins (idx + 1)
          (by omega) (by rw [extendAt_length hd1]; omega)
      · rw [if_neg hx]
        exact ih mins dnc ins (idx + 1) (by omega) (by omega)

/-! ## Line-level and table-level lemmas -/

theorem splitOnChar_ne_nil (sep : Char) (l : List Char) :
    splitOnChar sep l ≠ [] := by
  cases l with
  | nil => simp [splitOnChar]
  | cons c cs =>
    rw [splitOnChar]
    by_cases hc : c = sep
    · simp [hc]
    · rw [if_neg hc]
      cases h : splitOnChar sep cs <;> simp

theorem splitOnChar_of_not_mem {sep : Char} {l : List Char} (h : ¬ sep ∈ l) :
    splitOnChar sep l = [l] := by
  induction l with
  | nil => rfl
  | cons c cs ih =>
    simp only [List.mem_cons, not_or] at h
    rw [splitOnChar, if_neg (Ne.symm h.1), ih h.2]

theorem processLine_ok_sep {mins dnc m' d' : List (List Nat)} {line : List Char}
    (h : processLine mins dnc line = .ok (m', d')) :
    ∃ a b t, splitOnChar '|' line = a :: b :: t := by
  rw [processLine] at h
  cases hs : splitOnChar '|' line with
  | nil => rw [hs] at h; cases h
  | cons p0 restParts =>
    rw [hs] at h
    dsimp only at h
    cases hr : fromRowToNumbers (trim p0) with
    | error e => rw [hr] at h; cases h
    | ok inputs =>
      rw [hr] at h
      dsimp only at h
      cases restParts with
      | nil => cases h
      | cons p1 t => exact ⟨p0, p1, t, rfl⟩

theorem processLine_lengths {mins dnc m' d' : List (List Nat)} {line : List Char}
    (h : processLine mins dnc line = .ok (m', d')) :
    m'.length = mins.length ∧ d'.length = dnc.length := by
  rw [processLine] at h
  cases hs : splitOnChar '|' line with
  | nil => rw [hs] at h; cases h
  | cons p0 restParts =>
    rw [hs] at h
    dsimp only at h
    cases hr : fromRowToNumbers (trim p0) with
    | error e => rw [hr] at h; cases h
    | ok inputs =>
      rw [hr] at h
      dsimp only at h
      cases restParts with
      | nil => cases h
      | cons p1 t =>
        exact processOutputs_lengths _ _ _ _ _ _ _ h

theorem processLines_ok_sep :
    ∀ (ls : List (List Char)) (mins dnc m' d' : List (List Nat)),
      processLines mins dnc ls = .ok (m', d') →
      ∀ l ∈ ls, ∃ a b t, splitOnChar '|' l = a :: b :: t := by
  intro ls
  induction ls with
  | nil => intro _ _ _ _ _ l hl; cases hl
  | cons l0 rest ih =>
    intro mins dnc m' d' h l hl
    rw [processLines] at h
    cases hp : processLine mins dnc l0 with
    | error e => rw [hp] at h; cases h
    | ok md =>
      rw [hp] at h
      rcases List.mem_cons.mp hl with rfl | hl'
      · exact processLine_ok_sep
          (show processLine mins dnc l = .ok (md.1, md.2) by rw [hp])
      · exact ih md.1 md.2 m' d' h l hl'

theorem processLines_lengths :
    ∀ (ls : List (List Char)) (mins dnc m' d' : List (List Nat)),
      processLines mins dnc ls = .ok (m', d') →
      m'.length = mins.length ∧ d'.length = dnc.length := by
  intro ls
  induction ls with
  | nil =>
    intro mins dnc m' d' h
    simp only [processLines, Except.ok.injEq, Prod.mk.injEq] at h
    simp [← h.1, ← h.2]
  | cons l0 rest ih =>
    intro mins dnc m' d' h
    rw [processLines] at h
    cases hp : processLine mins dnc l0 with
    | error e => rw [hp] at h; cases h
    | ok md =>
      rw [hp] at h
      obtain ⟨h1, h2⟩ := ih md.1 md.2 m' d' h
      obtain ⟨h3, h4⟩ := processLine_lengths
        (show processLine mins dnc l0 = .ok (md.1, md.2) by rw [hp])
      exact ⟨h1.trans h3, h2.trans h4⟩

/-- Inversion of a successful `compile`: the shape of the header, the run of
the loop and the assembled result. -/
theorem compile_ok_inv {lines : List (List Char)} {r : CompileResult}
    (h : compile lines = .ok r) :
    ∃ first rest seg0 seg1 segr m d,
      lines = first :: rest ∧
      splitOnChar '|' first = seg0 :: seg1 :: segr ∧
      processLines (List.replicate (splitOnChar ' ' (trim seg1)).length [])
        (List.replicate (splitOnChar ' ' (trim seg1)).length [])
        (first :: rest) = .ok (m, d) ∧
      r = ⟨(splitOnChar ' ' (trim seg0)).length,
        (splitOnChar ' ' (trim seg1)).length, m, d⟩ := by
  cases lines with
  | nil => cases h
  | cons first rest =>
    rw [compile] at h
    cases hs : splitOnChar '|' first with
    | nil => rw [hs] at h; cases h
    | cons seg0 segs =>
      cases segs with
      | nil => rw [hs] at h; cases h
      | cons seg1 segr =>
        rw [hs] at h
        dsimp only at h
        cases hp : processLines
            (List.replicate (splitOnChar ' ' (trim seg1)).length [])
            (List.replicate (splitOnChar ' ' (trim seg1)).length [])
            (first :: rest) with
        | error e => rw [hp] at h; cases h
        | ok md =>
          rw [hp] at h
          refine ⟨first, rest, seg0, seg1, segr, md.1, md.2, rfl, hs, by rw [hp], ?_⟩
          cases h
          rfl

/-! ## Serialization and the reducer invocation (source lines 125–138)

```python
for index, (m, d) in enumerate(zip(minterms, dnc)):
    ...
    mstr = str(m).replace(" ", "")
    dstr = str(d).replace(" ", "")
    ...
    executeCommand(f"./petrick {optionalArgs} {inputCount} {mstr} {dstr}", cwd)
```
-/

/-- Decimal digit character. -/
def digitChar : Nat → Char
  | 0 => '0' | 1 => '1' | 2 => '2' | 3 => '3' | 4 => '4'
  | 5 => '5' | 6 => '6' | 7 => '7' | 8 => '8' | 9 => '9'
  | _ => '*'

/-- Python `str(n)` for a natural number: its decimal digits. -/
def natRepr (n : Nat) : List Char :=
  if h : n < 10 then [digitChar n]
  else natRepr (n / 10) ++ [digitChar (n % 10)]
termination_by n
decreasing_by
  exact Nat.div_lt_self (by omega) (by omega)

/-- The inside of Python `str(list)`: elements separated by `", "`. -/
def pyStrInner : List Nat → List Char
  | [] => []
  | [n] => natRepr n
  | n :: n2 :: rest => natRepr n ++ ',' :: ' ' :: pyStrInner (n2 :: rest)

/-- Python `str(list)` of a list of ints, e.g. `"[0, 2, 5]"`. -/
def pyStrList (l : List Nat) : List Char := '[' :: pyStrInner l ++ [']']

/-- `str(m).replace(" ", "")`: the argument handed to the reducer. -/
def serializeSet (l : List Nat) : List Char :=
  (pyStrList l).filter (fun c => c ≠ ' ')

/-- Comma-separated concatenation with no spaces, the shape the serialized
argument is claimed to have. -/
def commaSep : List (List Char) → List Char
  | [] => []
  | [s] => s
  | s :: s2 :: rest => s ++ ',' :: commaSep (s2 :: rest)

/-- One invocation of the external reducer: the `inputCount` and the two
serialized lists passed on the `petrick` command line. -/
def reducerCalls (r : CompileResult) : List (Nat × List Char × List Char) :=
  (r.minterms.zip r.dnc).map (fun p => (r.inputCount, serializeSet p.1, serializeSet p.2))

/-- The serialized payload a whole run hands over the external boundary. -/
def reducerPayload : Except String CompileResult → Option (List (Nat × List Char × List Char))
  | .ok r => some (reducerCalls r)
  | .error _ => none

theorem digitChar_ne_space : ∀ n, digitChar n ≠ ' ' := by
  intro n
  unfold digitChar
  split <;> decide

theorem natRepr_no_space : ∀ n, ¬ ' ' ∈ natRepr n := by
  intro n
  induction n using Nat.strong_induction_on with
  | _ n ih =>
    rw [natRepr]
    by_cases h : n < 10
    · rw [dif_pos h]
      simp [Ne.symm (digitChar_ne_space n)]
    · rw [dif_neg h]
      intro hmem
      rcases List.mem_append.mp hmem with hmem | hmem
      · exact ih (n / 10) (Nat.div_lt_self (by omega) (by omega)) hmem
      · rcases List.mem_singleton.mp hmem with he
        exact digitChar_ne_space (n % 10) he.symm

theorem filter_natRepr (n : Nat) :
    (natRepr n).filter (fun c => c ≠ ' ') = natRepr n :=
  List.filter_eq_self.mpr (fun c hc => by
    simp only [ne_eq, decide_not, Bool.not_eq_true']
    exact decide_eq_false (fun he => natRepr_no_space n (he ▸ hc)))

theorem filter_pyStrInner (l : List Nat) :
    (pyStrInner l).filter (fun c => c ≠ ' ') = commaSep (l.map natRepr) := by
  induction l with
  | nil => rfl
  | cons n rest ih =>
    cases rest with
    | nil =>
      rw [pyStrInner, List.map_singleton, commaSep, filter_natRepr]
    | cons n2 rest2 =>
      rw [pyStrInner, List.filter_append, filter_natRepr]
      have hcs : List.filter (fun c => decide (c ≠ ' ')) (',' :: ' ' :: pyStrInner (n2 :: rest2))
          = ',' :: List.filter (fun c => decide (c ≠ ' ')) (pyStrInner (n2 :: rest2)) := by
        rw [List.filter_cons, List.filter_cons]
        simp
      rw [hcs, ih, List.map_cons, List.map_cons]
      rfl

/-- `str(m).replace(" ", "")` is exactly the bracketed comma-separated list of
the decimal numerals, with no spaces left. -/
theorem serializeSet_eq (l : List Nat) :
    serializeSet l = '[' :: commaSep (l.map natRepr) ++ [']'] := by
  rw [serializeSet, pyStrList, List.filter_append, List.filter_cons,
    filter_pyStrInner]
  simp

theorem serializeSet_no_space (l : List Nat) : ¬ ' ' ∈ serializeSet l := by
  intro h
  rw [serializeSet] at h
  have := List.of_mem_filter h
  simp at this

/-! ## Claim theorems -/

/-- C1 (counterexample): the table with symbolic header `a b | Q0` and data
row `0 0 | 1` does not compile to `MintermSet[0] = [0]`: the loop runs over
*every* line, so the header itself is fed to the wildcard expansion, where
`int("ab", 2)` raises `ValueError`. -/
theorem compile_symbolic_header_valueerror :
    compile [("a b | Q0").toList, ("0 0 | 1").toList] = .error "ValueError" :=
  (compile_eq_impl _).trans rfl

/-- C1 (amended): the first line is not skipped as a header; it is counted
for the column layout and then processed as a data row like every other
line.  A table with the symbolic header `a b | Q0` fails with `ValueError`,
while the table whose single line is `0 0 | 1` (the first line serving as
both layout and data) compiles with `MintermSet[0] = [0]` and
`DontCareSet[0] = []`. -/
theorem compile_first_line_is_data :
    compile [("a b | Q0").toList, ("0 0 | 1").toList] = .error "ValueError" ∧
    compile [("0 0 | 1").toList] =
      .ok ⟨2, 1, [[0]], [[]]⟩ :=
  ⟨(compile_eq_impl _).trans rfl, (compile_eq_impl _).trans rfl⟩

/-- C4 (counterexample): a table whose second row carries the output symbol
`2` — a character outside `{0,1,x}` — compiles without any error at all: the
output loop tests only `== '1'` and `== 'x'` and silently skips everything
else, so no `InvalidSymbol` error exists. -/
theorem compile_invalid_output_symbol_accepted :
    compile [("0 0 | 1").toList, ("0 1 | 2").toList] =
      .ok ⟨2, 1, [[0]], [[]]⟩ :=
  (compile_eq_impl _).trans rfl

/-- C4 (amended): an *ASCII* character in an *input* pattern outside
`{0,1,x}` and outside everything CPython's `int(s, 2)` tolerates (ASCII
whitespace — the separator controls `\x1c`–`\x1f` included — a sign,
grouping underscores, the prefix letters `b`/`B`) makes the expansion fail
with a bare `ValueError` that names neither the row nor the offending
column, while an invalid *output* symbol raises no error at all (it is
silently ignored, see the counterexample).  Non-ASCII characters are left
unconstrained: CPython normalizes Unicode decimal digits and Unicode
whitespace before parsing, behaviour `parseBin` does not model. -/
theorem invalid_input_char_valueerror (p : List Char) (c : Char)
    (hc : c ∈ p) (_hascii : c.toNat < 128)
    (hnot : ¬ c ∈ ['0', '1', 'x', ' ', '+', '-', '_', 'b', 'B',
      '\t', '\n', '\r', Char.ofNat 11, Char.ofNat 12,
      Char.ofNat 28, Char.ofNat 29, Char.ofNat 30, Char.ofNat 31]) :
    fromRowToNumbers p = .error "ValueError" := by
  simp only [List.mem_cons, List.not_mem_nil, or_false, not_or] at hnot
  obtain ⟨h0, h1, hx, hs, -⟩ := hnot
  exact fromRowToNumbers_invalid p c hc h0 h1 hx hs

/-- Witness for the amended C4: the input pattern `0 2 0` (Scenario 5's
offending character `2`) fails with `ValueError`. -/
theorem invalid_input_char_valueerror_witness :
    ('2' ∈ ("0 2 0").toList) ∧ ('2'.toNat < 128) ∧
    (¬ '2' ∈ ['0', '1', 'x', ' ', '+', '-', '_', 'b', 'B',
      '\t', '\n', '\r', Char.ofNat 11, Char.ofNat 12,
      Char.ofNat 28, Char.ofNat 29, Char.ofNat 30, Char.ofNat 31]) ∧
    fromRowToNumbers (("0 2 0").toList) = .error "ValueError" :=
  ⟨by decide, by decide, by decide,
    invalid_input_char_valueerror _ '2' (by decide) (by decide) (by decide)⟩

/-- C5 (counterexample): a data row with a single output symbol under a
header declaring two output columns does not fail with `MalformedRow` — it
compiles fine, the short row contributing only to column 0. -/
theorem compile_short_output_row_accepted :
    compile [("0 0 | 1 1").toList, ("0 1 | 1").toList] =
      .ok ⟨2, 2, [[0, 1], [0]], [[], []]⟩ :=
  (compile_eq_impl _).trans rfl

/-- C5 (amended): no output-count check exists.  A data row with fewer
output symbols than there are columns is accepted without error: the output
loop enumerates just the symbols present, and every column at or beyond the
row's own length keeps its sets unchanged. -/
theorem short_output_row_no_error (outs : List (List Char))
    (mins dnc : List (List Nat)) (ins : List Nat) (idx : Nat)
    (hm : idx + outs.length ≤ mins.length)
    (hd : idx + outs.length ≤ dnc.length) :
    ∃ m' d', processOutputs mins dnc outs ins idx = .ok (m', d') ∧
      ∀ j, idx + outs.length ≤ j → m'[j]? = mins[j]? ∧ d'[j]? = dnc[j]? := by
  obtain ⟨m', d', hok⟩ := processOutputs_total outs mins dnc ins idx hm hd
  exact ⟨m', d', hok, fun j hj =>
    (processOutputs_spec outs mins dnc m' d' ins idx hok).1 j (Or.inr hj)⟩

/-- Witness for the amended C5: one output symbol against two columns is
processed without error. -/
theorem short_output_row_no_error_witness :
    (0 + [['1']].length ≤ ([[], []] : List (List Nat)).length) ∧
    (0 + [['1']].length ≤ ([[], []] : List (List Nat)).length) ∧
    ∃ m' d', processOutputs [[], []] [[], []] [['1']] [1] 0 = .ok (m', d') ∧
      ∀ j, 0 + [['1']].length ≤ j →
        m'[j]? = ([[], []] : List (List Nat))[j]? ∧
        d'[j]? = ([[], []] : List (List Nat))[j]? :=
  ⟨by decide, by decide,
    short_output_row_no_error [['1']] [[], []] [[], []] [1] 0
      (by decide) (by decide)⟩

/-- C6 (counterexample): empty lines are not skipped.  Appending an empty
line (as `readlines` yields it, `"\n"`) to the one-row table `0 0 | 1` turns
a successful compilation into a `ValueError`: the empty line has no `|`, so
its whole (empty) text is handed to the expansion and `int("", 2)` fails —
not the same sets as with the empty line removed. -/
theorem compile_empty_line_not_skipped :
    compile [("0 0 | 1").toList, ['\n']] = .error "ValueError" ∧
    compile [("0 0 | 1").toList] = .ok ⟨2, 1, [[0]], [[]]⟩ :=
  ⟨(compile_eq_impl _).trans rfl, (compile_eq_impl _).trans rfl⟩

/-- C6 (amended): lines are not filtered for emptiness; instead, any line
without a `|` separator — an empty line in particular — makes the whole
compilation fail (with the `ValueError` of parsing its input segment, or an
`IndexError` when its segment parses), so a table containing an empty line
never compiles at all. -/
theorem compile_missing_separator_fails (lines : List (List Char))
    (l : List Char) (hl : l ∈ lines) (hsep : ¬ '|' ∈ l) :
    ∃ e, compile lines = .error e := by
  cases hres : compile lines with
  | error e => exact ⟨e, rfl⟩
  | ok r =>
    exfalso
    obtain ⟨first, rest, seg0, seg1, segr, m, d, hlines, hsplit, hpl, -⟩ :=
      compile_ok_inv hres
    obtain ⟨a, b, t, habt⟩ :=
      processLines_ok_sep _ _ _ _ _ hpl l (hlines ▸ hl)
    rw [splitOnChar_of_not_mem hsep] at habt
    simp at habt

/-- Witness for the amended C6: the table `0 0 | 1` followed by an empty
line fails. -/
theorem compile_missing_separator_fails_witness :
    (['\n'] ∈ [("0 0 | 1").toList, ['\n']]) ∧
    (¬ '|' ∈ ['\n']) ∧
    ∃ e, compile [("0 0 | 1").toList, ['\n']] = .error e :=
  ⟨by decide, by decide,
    compile_missing_separator_fails _ ['\n'] (by decide) (by decide)⟩

/-- C2: on a pattern over `{0,1,x}` with `k` wildcards, `fromRowToNumbers`
returns exactly the `2^k` pairwise-distinct values below `2^length`, each
the value of a concrete word consistent with the pattern (membership in
`expandAll` is exactly `matchesPat`), and in the stable order where the
first wildcard varies slowest with `0` before `1` (the wildcard bits of the
`j`-th element read off as the binary numeral for `j`). -/
theorem fromRowToNumbers_expansion (p : List Char) (hne : p ≠ [])
    (halpha : ∀ c ∈ p, c = '0' ∨ c = '1' ∨ c = 'x') :
    fromRowToNumbers p = .ok ((expandAll p).map binVal) ∧
    ((expandAll p).map binVal).length = 2 ^ countCh 'x' p ∧
    ((expandAll p).map binVal).Nodup ∧
    (∀ m ∈ (expandAll p).map binVal, m < 2 ^ p.length) ∧
    (∀ w, w ∈ expandAll p ↔ matchesPat p w = true) ∧
    (expandAll p).map (fun w => binVal (wilds p w)) =
      List.range (2 ^ countCh 'x' p) := by
  have hfil : p.filter (fun c => c ≠ ' ') = p :=
    List.filter_eq_self.mpr (fun c hc => by
      rcases halpha c hc with rfl | rfl | rfl <;> decide)
  refine ⟨?_, ?_, ?_, ?_, fun w => mem_expandAll_iff p w, expandAll_order p⟩
  · have := fromRowToNumbers_valid p
      (fun c hc => by
        rcases halpha c hc with rfl | rfl | rfl
        · exact Or.inl rfl
        · exact Or.inr (Or.inl rfl)
        · exact Or.inr (Or.inr (Or.inl rfl)))
      (by rw [hfil]; exact hne)
    rwa [hfil] at this
  · rw [List.length_map, length_expandAll]
  · refine (nodup_expandAll p).map_on ?_
    intro x hx y hy hxy
    exact binVal_inj (binary_of_mem_expandAll halpha hx)
      (binary_of_mem_expandAll halpha hy)
      ((length_of_mem_expandAll hx).trans (length_of_mem_expandAll hy).symm) hxy
  · intro m hm
    obtain ⟨w, hw, rfl⟩ := List.mem_map.mp hm
    have := binVal_lt w
    rwa [length_of_mem_expandAll hw] at this

/-- Witness for C2 at the Scenario-3 pattern `1x0`: one wildcard, expansion
`[4, 6]`. -/
theorem fromRowToNumbers_expansion_witness :
    (("1x0").toList ≠ []) ∧
    (∀ c ∈ ("1x0").toList, c = '0' ∨ c = '1' ∨ c = 'x') ∧
    (fromRowToNumbers (("1x0").toList) =
      .ok ((expandAll (("1x0").toList)).map binVal) ∧
    ((expandAll (("1x0").toList)).map binVal).length =
      2 ^ countCh 'x' (("1x0").toList) ∧
    ((expandAll (("1x0").toList)).map binVal).Nodup ∧
    (∀ m ∈ (expandAll (("1x0").toList)).map binVal,
      m < 2 ^ (("1x0").toList).length) ∧
    (∀ w, w ∈ expandAll (("1x0").toList) ↔
      matchesPat (("1x0").toList) w = true) ∧
    (expandAll (("1x0").toList)).map (fun w => binVal (wilds (("1x0").toList) w)) =
      List.range (2 ^ countCh 'x' (("1x0").toList))) :=
  ⟨by decide, by decide,
    fromRowToNumbers_expansion (("1x0").toList) (by decide) (by decide)⟩

/-- C3: for a well-formed data row (its split has a second segment and its
input pattern expands to `ins`), a successful pass through the row routes by
output symbol: the column under a `1` gets `ins` appended to its minterm
list and its don't-care list untouched; under an `x` the don't-care list
gets `ins` and the minterm list is untouched; under a `0` both are
untouched. -/
theorem processLine_classification
    (line p0 p1 : List Char) (restParts : List (List Char))
    (mins dnc m' d' : List (List Nat)) (ins : List Nat)
    (hsplit : splitOnChar '|' line = p0 :: p1 :: restParts)
    (hrow : fromRowToNumbers (trim p0) = .ok ins)
    (hok : processLine mins dnc line = .ok (m', d')) :
    ∀ t (ht : t < (splitOnChar ' ' (trim p1)).length),
      ((splitOnChar ' ' (trim p1))[t] = ['1'] →
        m'[t]? = (mins[t]?).map (fun s => s ++ ins) ∧ d'[t]? = dnc[t]?) ∧
      ((splitOnChar ' ' (trim p1))[t] = ['x'] →
        d'[t]? = (dnc[t]?).map (fun s => s ++ ins) ∧ m'[t]? = mins[t]?) ∧
      ((splitOnChar ' ' (trim p1))[t] = ['0'] →
        m'[t]? = mins[t]? ∧ d'[t]? = dnc[t]?) := by
  rw [processLine, hsplit] at hok
  dsimp only at hok
  rw [hrow] at hok
  dsimp only at hok
  have hspec := processOutputs_spec _ _ _ _ _ _ _ hok
  intro t ht
  obtain ⟨r1, r2, r3⟩ := hspec.2 t ht
  rw [Nat.zero_add] at r1 r2 r3
  exact ⟨r1, r2, fun h0 => r3 (by rw [h0]; decide) (by rw [h0]; decide)⟩

/-- Witness for C3 at Scenario 3's row `1 x 0 | 1 0` with two fresh columns:
the expansion `[4, 6]` lands in `MintermSet[0]` and nowhere else. -/
theorem processLine_classification_witness :
    (splitOnChar '|' (("1 x 0 | 1 0").toList) =
      [("1 x 0 ").toList, (" 1 0").toList]) ∧
    (fromRowToNumbers (trim (("1 x 0 ").toList)) = .ok [4, 6]) ∧
    (processLine [[], []] [[], []] (("1 x 0 | 1 0").toList) =
      .ok ([[4, 6], []], [[], []])) ∧
    (∀ t (ht : t < (splitOnChar ' ' (trim ((" 1 0").toList))).length),
      ((splitOnChar ' ' (trim ((" 1 0").toList)))[t] = ['1'] →
        ([[4, 6], []] : List (List Nat))[t]? =
          ((([[], []] : List (List Nat)))[t]?).map (fun s => s ++ [4, 6]) ∧
        ([[], []] : List (List Nat))[t]? = ([[], []] : List (List Nat))[t]?) ∧
      ((splitOnChar ' ' (trim ((" 1 0").toList)))[t] = ['x'] →
        ([[], []] : List (List Nat))[t]? =
          ((([[], []] : List (List Nat)))[t]?).map (fun s => s ++ [4, 6]) ∧
        ([[4, 6], []] : List (List Nat))[t]? = ([[], []] : List (List Nat))[t]?) ∧
      ((splitOnChar ' ' (trim ((" 1 0").toList)))[t] = ['0'] →
        ([[4, 6], []] : List (List Nat))[t]? = ([[], []] : List (List Nat))[t]? ∧
        ([[], []] : List (List Nat))[t]? = ([[], []] : List (List Nat))[t]?)) := by
  have h1 : splitOnChar '|' (("1 x 0 | 1 0").toList) =
      [("1 x 0 ").toList, (" 1 0").toList] := by decide
  have h2 : fromRowToNumbers (trim (("1 x 0 ").toList)) = .ok [4, 6] :=
    (fromRowToNumbers_eq_impl _).trans rfl
  have h3 : processLine [[], []] [[], []] (("1 x 0 | 1 0").toList) =
      .ok ([[4, 6], []], [[], []]) :=
    (processLine_eq_impl _ _ _).trans rfl
  exact ⟨h1, h2, h3,
    processLine_classification _ _ _ _ _ _ _ _ _ h1 h2 h3⟩

/-- C8: the wildcard expansion terminates on every input.  Each recursive
call replaces the first wildcard, strictly decreasing the count of `x`
symbols; the function is total (it returns a value on every string); and a
successful expansion of a row with `k` wildcards has exactly `2^k` entries,
bounded by `2^length`. -/
theorem fromRowToNumbers_terminates :
    (∀ (l : List Char) (b : Char), b ≠ 'x' → 'x' ∈ l →
      countCh 'x' (replaceFirst l 'x' b) < countCh 'x' l) ∧
    (∀ input : List Char, ∃ r, fromRowToNumbers input = r) ∧
    (∀ (input : List Char) (r : List Nat), fromRowToNumbers input = .ok r →
      r.length = 2 ^ countCh 'x' input ∧ r.length ≤ 2 ^ input.length) := by
  have key : ∀ (k : Nat) (input : List Char), countCh 'x' input = k →
      ∀ r : List Nat, fromRowToNumbers input = .ok r →
      r.length = 2 ^ countCh 'x' input := by
    intro k
    induction k using Nat.strong_induction_on with
    | _ k ih =>
      intro input hk r hr
      by_cases hx : 'x' ∈ input
      · rw [fromRowToNumbers_of_mem input hx] at hr
        cases h0 : fromRowToNumbers (replaceFirst input 'x' '0') with
        | error e => rw [h0] at hr; cases hr
        | ok a =>
          rw [h0] at hr
          dsimp only at hr
          cases h1 : fromRowToNumbers (replaceFirst input 'x' '1') with
          | error e => rw [h1] at hr; cases hr
          | ok b =>
            rw [h1] at hr
            dsimp only at hr
            have hc0 : countCh 'x' (replaceFirst input 'x' '0') < k :=
              hk ▸ countCh_replaceFirst_lt input 'x' '0' hx (by decide)
            have hc1 : countCh 'x' (replaceFirst input 'x' '1') < k :=
              hk ▸ countCh_replaceFirst_lt input 'x' '1' hx (by decide)
            have hla := ih _ hc0 _ rfl a h0
            have hlb := ih _ hc1 _ rfl b h1
            have hs0 : countCh 'x' (replaceFirst input 'x' '0') + 1 =
                countCh 'x' input :=
              countCh_replaceFirst_succ input 'x' '0' hx (by decide)
            have hs1 : countCh 'x' (replaceFirst input 'x' '1') + 1 =
                countCh 'x' input :=
              countCh_replaceFirst_succ input 'x' '1' hx (by decide)
            injection hr with hr'
            rw [← hr', List.length_append, hla, hlb]
            have heq : countCh 'x' (replaceFirst input 'x' '1') =
                countCh 'x' (replaceFirst input 'x' '0') := by omega
            rw [heq, ← hs0, pow_succ]
            ring
      · rw [fromRowToNumbers_of_not_mem input hx] at hr
        cases hp : parseBin (input.filter (fun c => c ≠ ' ')) with
        | none => rw [hp] at hr; cases hr
        | some n =>
          rw [hp] at hr
          dsimp only at hr
          injection hr with hr'
          rw [← hr', countCh_eq_zero hx]
          rfl
  refine ⟨fun l b hb hx => countCh_replaceFirst_lt l 'x' b hx hb,
    fun input => ⟨_, rfl⟩, fun input r hr => ?_⟩
  have hlen := key (countCh 'x' input) input rfl r hr
  exact ⟨hlen, hlen ▸ Nat.pow_le_pow_right (by omega)
    (countCh_le_length 'x' input)⟩

/-- Witness for C8 at the row `x1`: the replace-first call decreases the
wildcard count, and the successful expansion `[1, 3]` has `2^1` entries
within the `2^2` bound. -/
theorem fromRowToNumbers_terminates_witness :
    (countCh 'x' (replaceFirst (("x1").toList) 'x' '0') <
      countCh 'x' (("x1").toList)) ∧
    (∃ r, fromRowToNumbers (("x1").toList) = r) ∧
    (([1, 3] : List Nat).length = 2 ^ countCh 'x' (("x1").toList) ∧
      ([1, 3] : List Nat).length ≤ 2 ^ (("x1").toList).length) :=
  ⟨fromRowToNumbers_terminates.1 _ '0' (by decide) (by decide),
    fromRowToNumbers_terminates.2.1 _,
    fromRowToNumbers_terminates.2.2 _ [1, 3]
      ((fromRowToNumbers_eq_impl _).trans rfl)⟩

/-- C7: a successful compilation hands the reducer one call per output
column, in column order: the call list has exactly `outFuncCount` entries,
the `j`-th carrying `inputCount` and the serialized `MintermSet[j]` and
`DontCareSet[j]`; and every serialized set is the bracketed comma-separated
list of decimal numerals with no internal spaces. -/
theorem compile_reducer_contract (lines : List (List Char)) (r : CompileResult)
    (h : compile lines = .ok r) :
    r.minterms.length = r.outFuncCount ∧
    r.dnc.length = r.outFuncCount ∧
    (reducerCalls r).length = r.outFuncCount ∧
    (∀ (j : Nat) (hj : j < (reducerCalls r).length)
        (hmj : j < r.minterms.length) (hdj : j < r.dnc.length),
      (reducerCalls r)[j] =
        (r.inputCount, serializeSet r.minterms[j], serializeSet r.dnc[j])) ∧
    (∀ l : List Nat,
      serializeSet l = '[' :: commaSep (l.map natRepr) ++ [']'] ∧
      ¬ ' ' ∈ serializeSet l) := by
  obtain ⟨first, rest, seg0, seg1, segr, m, d, hlines, hsplit, hpl, hr⟩ :=
    compile_ok_inv h
  obtain ⟨hm, hd⟩ := processLines_lengths _ _ _ _ _ hpl
  rw [List.length_replicate] at hm hd
  have hmr : r.minterms = m := by rw [hr]
  have hdr : r.dnc = d := by rw [hr]
  have hocr : r.outFuncCount = (splitOnChar ' ' (trim seg1)).length := by rw [hr]
  have h1 : r.minterms.length = r.outFuncCount := by rw [hmr, hocr, hm]
  have h2 : r.dnc.length = r.outFuncCount := by rw [hdr, hocr, hd]
  refine ⟨h1, h2, ?_, ?_, fun l => ⟨serializeSet_eq l, serializeSet_no_space l⟩⟩
  · rw [reducerCalls, List.length_map, List.length_zip, h1, h2, Nat.min_self]
  · intro j hj hmj hdj
    simp only [reducerCalls] at hj ⊢
    rw [List.getElem_map, List.getElem_zip]

/-- Witness for C7 at the one-line table `0 0 | 1 x`: two columns, two
reducer calls. -/
theorem compile_reducer_contract_witness :
    (compile [("0 0 | 1 x").toList] =
      .ok ⟨2, 2, [[0], []], [[], [0]]⟩) ∧
    ((⟨2, 2, [[0], []], [[], [0]]⟩ : CompileResult).minterms.length =
      (⟨2, 2, [[0], []], [[], [0]]⟩ : CompileResult).outFuncCount) ∧
    ((⟨2, 2, [[0], []], [[], [0]]⟩ : CompileResult).dnc.length =
      (⟨2, 2, [[0], []], [[], [0]]⟩ : CompileResult).outFuncCount) ∧
    ((reducerCalls ⟨2, 2, [[0], []], [[], [0]]⟩).length =
      (⟨2, 2, [[0], []], [[], [0]]⟩ : CompileResult).outFuncCount) := by
  have h : compile [("0 0 | 1 x").toList] =
      .ok ⟨2, 2, [[0], []], [[], [0]]⟩ :=
    (compile_eq_impl _).trans rfl
  have hc := compile_reducer_contract _ _ h
  exact ⟨h, hc.1, hc.2.1, hc.2.2.1⟩

/-- C9: the parse-and-classify transformation is a pure function of the
line sequence: two runs on the same lines return the same result and the
same serialized reducer payload. -/
theorem compile_deterministic (lines : List (List Char))
    (r1 r2 : Except String CompileResult)
    (h1 : compile lines = r1) (h2 : compile lines = r2) :
    r1 = r2 ∧ reducerPayload r1 = reducerPayload r2 := by
  subst h1
  subst h2
  exact ⟨rfl, rfl⟩

/-- Witness for C9: two runs over the table `0 0 | 1`. -/
theorem compile_deterministic_witness :
    ((.ok ⟨2, 1, [[0]], [[]]⟩ : Except String CompileResult) =
      .ok ⟨2, 1, [[0]], [[]]⟩) ∧
    reducerPayload (.ok ⟨2, 1, [[0]], [[]]⟩) =
      reducerPayload (.ok ⟨2, 1, [[0]], [[]]⟩) :=
  compile_deterministic [("0 0 | 1").toList] _ _
    ((compile_eq_impl _).trans rfl) ((compile_eq_impl _).trans rfl)

/-- C10: an output token that is neither `1` nor `x` — `2`, `Q0`, anything —
behaves exactly like the deny marker `0`: processing it is literally the
same as processing `0` in its place, and a row whose tokens are all such
non-markers leaves every minterm and don't-care list unchanged and raises no
error. -/
theorem nonassert_token_like_deny :
    (∀ (mins dnc : List (List Nat)) (out : List Char) (rest : List (List Char))
        (ins : List Nat) (idx : Nat), out ≠ ['1'] → out ≠ ['x'] →
      processOutputs mins dnc (out :: rest) ins idx =
        processOutputs mins dnc (['0'] :: rest) ins idx) ∧
    (∀ (mins dnc : List (List Nat)) (outs : List (List Char))
        (ins : List Nat) (idx : Nat), (∀ o ∈ outs, o ≠ ['1'] ∧ o ≠ ['x']) →
      processOutputs mins dnc outs ins idx = .ok (mins, dnc)) := by
  constructor
  · intro mins dnc out rest ins idx h1 hx
    have hl : processOutputs mins dnc (out :: rest) ins idx =
        processOutputs mins dnc rest ins (idx + 1) := by
      rw [processOutputs, if_neg h1, if_neg hx]
    have hr : processOutputs mins dnc (['0'] :: rest) ins idx =
        processOutputs mins dnc rest ins (idx + 1) := by
      rw [processOutputs]
      rw [if_neg (by decide), if_neg (by decide)]
    rw [hl, hr]
  · intro mins dnc outs ins
    induction outs with
    | nil => intro idx _; rfl
    | cons o rest ih =>
      intro idx hall
      have ho := hall o (List.mem_cons_self _ _)
      rw [processOutputs, if_neg ho.1, if_neg ho.2]
      exact ih (idx + 1) (fun o' ho' => hall o' (List.mem_cons_of_mem _ ho'))

/-- Witness for C10: the invalid one-character token `2` and the
multi-character token `Q0`. -/
theorem nonassert_token_like_deny_witness :
    (processOutputs [[2]] [[3]] [['2'], ['1']] [7] 0 =
      processOutputs [[2]] [[3]] [['0'], ['1']] [7] 0) ∧
    (processOutputs [[2]] [[3]] [['Q', '0']] [7] 0 = .ok ([[2]], [[3]])) :=
  ⟨nonassert_token_like_deny.1 [[2]] [[3]] ['2'] [['1']] [7] 0
      (by decide) (by decide),
    nonassert_token_like_deny.2 [[2]] [[3]] [['Q', '0']] [7] 0 (by decide)⟩

end LogicReducer
